import Mathlib

/-!
Verification development for the text-reveal animator in
`pr3/assets/js/script.js` of the `web_examples_for_students` repository.

Modelling conventions (shallow embedding):

* A JavaScript string handed to `Array.from` is modelled as a `List Char`:
  `Array.from` iterates a string by Unicode code points, and a Lean `Char`
  is exactly one Unicode scalar value, so `String.data` matches it.
* The elements of the padded "from" array are JavaScript strings that are
  either one-character strings or the empty string `""` (the padding value
  of `Array(n).fill("")`); they are modelled as `Option Char`
  (`some c` for a one-character string, `none` for `""`).
* `performance.now()` / animation-frame timestamps are modelled as `ℚ`
  (idealising IEEE doubles; every quantity involved is exact at this scale).
* The per-element `WeakMap` entry holding the pending
  `requestAnimationFrame` id is modelled as an `Option Session` field of
  the element state: `some s` means a frame callback for session `s` is
  scheduled, `none` means no callback is pending.  `cancelAnimationFrame`
  becomes setting that field to `none`; an animation frame firing is the
  `fireTick` transition below.
* Setting `innerHTML` re-renders the element; its resulting `textContent`
  is modelled by `textContentOf` (drop tags, decode the five entities).
-/

/-- The non-breaking space character U+00A0, used as the visible
placeholder for space characters during the animation. -/
def nbspChar : Char := '\u00A0'

/-- One step of JavaScript `String.prototype.replaceAll` with a
single-character search string: every occurrence of `target` is replaced
by `repl`. -/
def replaceAllChar (target : Char) (repl : List Char) : List Char → List Char
  | [] => []
  | c :: rest => (if c = target then repl else [c]) ++ replaceAllChar target repl rest

/-- Model of `escapeHtml` from `script.js` lines 771-779: the five
`replaceAll` calls in source order, the ampersand replaced first. -/
def escapeHtml (s : List Char) : List Char :=
  replaceAllChar '\'' ("&#039;".data)
    (replaceAllChar '"' ("&quot;".data)
      (replaceAllChar '>' ("&gt;".data)
        (replaceAllChar '<' ("&lt;".data)
          (replaceAllChar '&' ("&amp;".data) s))))

/-- The effect of `escapeHtml` on a single character (to be proved equal
to the chained-replacement form). -/
def escapeChar (c : Char) : List Char :=
  if c = '&' then "&amp;".data
  else if c = '<' then "&lt;".data
  else if c = '>' then "&gt;".data
  else if c = '"' then "&quot;".data
  else if c = '\'' then "&#039;".data
  else [c]

/-- Character-by-character form of the escaper. -/
def escapeList (s : List Char) : List Char :=
  s.flatMap escapeChar

/-- Decoder for the five entities produced by `escapeHtml`; used to state
that escaping is lossless and to model how a browser derives text content
from markup. -/
def unescapeHtml : List Char → List Char
  | '&' :: 'a' :: 'm' :: 'p' :: ';' :: rest => '&' :: unescapeHtml rest
  | '&' :: 'l' :: 't' :: ';' :: rest => '<' :: unescapeHtml rest
  | '&' :: 'g' :: 't' :: ';' :: rest => '>' :: unescapeHtml rest
  | '&' :: 'q' :: 'u' :: 'o' :: 't' :: ';' :: rest => '"' :: unescapeHtml rest
  | '&' :: '#' :: '0' :: '3' :: '9' :: ';' :: rest => '\'' :: unescapeHtml rest
  | c :: rest => c :: unescapeHtml rest
  | [] => []

/-- Tag remover: drops every maximal `<` … `>` run, keeping the text
between tags (state `true` = currently inside a tag). -/
def stripTagsGo : Bool → List Char → List Char
  | _, [] => []
  | true, c :: rest => if c = '>' then stripTagsGo false rest else stripTagsGo true rest
  | false, c :: rest => if c = '<' then stripTagsGo true rest else c :: stripTagsGo false rest

/-- Tag remover entry point. -/
def stripTags (s : List Char) : List Char :=
  stripTagsGo false s

/-- The text content a browser derives from a fragment of markup of the
shape the animator produces: remove the tags, decode the entities. -/
def textContentOf (markup : List Char) : List Char :=
  unescapeHtml (stripTags markup)

/-- The regex replacement on line 757 of the source, which strips the
trailing run of non-breaking spaces (U+00A0) from the built markup. -/
def stripNbsp (s : List Char) : List Char :=
  (s.reverse.dropWhile (fun c => c = nbspChar)).reverse

/-- Rendering of one element of the padded "from" array as a JavaScript
string: a one-character string or the empty padding string. -/
def optStr : Option Char → List Char
  | some c => [c]
  | none => []

/-- The set of characters removed by JavaScript `String.prototype.trim`
(ECMA-262 WhiteSpace and LineTerminator code points). -/
def isJsWhitespace (c : Char) : Bool :=
  c.toNat = 0x9 || c.toNat = 0xA || c.toNat = 0xB || c.toNat = 0xC ||
  c.toNat = 0xD || c.toNat = 0x20 || c.toNat = 0xA0 || c.toNat = 0x1680 ||
  (0x2000 ≤ c.toNat && c.toNat ≤ 0x200A) || c.toNat = 0x2028 ||
  c.toNat = 0x2029 || c.toNat = 0x202F || c.toNat = 0x205F ||
  c.toNat = 0x3000 || c.toNat = 0xFEFF

/-- Line 743 of the source: `sourceChar === " " ? " " : sourceChar`.
A space becomes a non-breaking space; anything else (including the empty
padding string `none`) is unchanged. -/
def charToShow (sourceChar : Option Char) : Option Char :=
  if sourceChar = some ' ' then some nbspChar else sourceChar

/-- The test `sourceChar.trim() !== ""` on line 746: true exactly when the
source cell is a one-character string whose character is not JavaScript
whitespace. -/
def sourceTrimNonempty (sourceChar : Option Char) : Bool :=
  match sourceChar with
  | none => false
  | some c => !(isJsWhitespace c)

/-- Opening tag of the highlight wrapper on line 748. -/
def spanOpen : List Char :=
  "<span class=\"i18n-char-highlight\">".data

/-- Closing tag of the highlight wrapper on line 748. -/
def spanClose : List Char :=
  "</span>".data

/-- One iteration of the `for` loop of `step` (lines 736-751), producing
the markup pushed onto `out` for position `i`. -/
def cellMarkup (tc : Char) (fc : Option Char) (i revealCount highlightIndex : ℤ) :
    List Char :=
  if i < revealCount then escapeHtml [tc]
  else if i = highlightIndex ∧ sourceTrimNonempty fc then
    spanOpen ++ escapeHtml (optStr (charToShow fc)) ++ spanClose
  else escapeHtml (optStr (charToShow fc))

/-- The characters of `cellMarkup` as they appear to the user: the same
choice of character, without escaping and without the wrapper tags. -/
def cellPlain (tc : Char) (fc : Option Char) (i revealCount : ℤ) : List Char :=
  if i < revealCount then [tc] else optStr (charToShow fc)

/-- Whether the loop iteration for position `i` emits the highlight
`<span>` element. -/
def cellIsSpan (fc : Option Char) (i revealCount highlightIndex : ℤ) : Bool :=
  decide (¬ i < revealCount ∧ i = highlightIndex ∧ sourceTrimNonempty fc)

/-- The whole `for` loop of `step`: the concatenation `out.join("")`,
iterating over the zipped target/padded-source cells from index `i`. -/
def outCells : List (Char × Option Char) → ℤ → ℤ → ℤ → List Char
  | [], _, _, _ => []
  | (tc, fc) :: rest, i, revealCount, highlightIndex =>
    cellMarkup tc fc i revealCount highlightIndex ++
      outCells rest (i + 1) revealCount highlightIndex

/-- The user-visible characters produced by the same loop. -/
def outPlain : List (Char × Option Char) → ℤ → ℤ → List Char
  | [], _, _ => []
  | (tc, fc) :: rest, i, revealCount =>
    cellPlain tc fc i revealCount ++ outPlain rest (i + 1) revealCount

/-- Number of highlight `<span>` child elements emitted by the loop
(the `childElementCount` of the element after the `innerHTML`
assignment). -/
def outChildCount : List (Char × Option Char) → ℤ → ℤ → ℤ → ℕ
  | [], _, _, _ => 0
  | (_, fc) :: rest, i, revealCount, highlightIndex =>
    (if cellIsSpan fc i revealCount highlightIndex then 1 else 0) +
      outChildCount rest (i + 1) revealCount highlightIndex

/-- `I18N_TEXT_SWAP_MS` from line 16 of the source. -/
def I18N_TEXT_SWAP_MS : ℚ := 1000

/-- One animation session, as captured by the closure created in
`animateTextScramble` (lines 722-727): the padded "from" cells, the
target characters (`toPadded`, also the `nextText` committed at the
end), and the `performance.now()` start timestamp. -/
structure Session where
  fromPadded : List (Option Char)
  toChars : List Char
  start : ℚ
deriving DecidableEq, Repr

/-- Line 725 of the source:
`fromChars.slice(0, targetLen).concat(Array(Math.max(0, targetLen - fromChars.length)).fill(""))`. -/
def mkFromPadded (fromChars toChars : List Char) : List (Option Char) :=
  (fromChars.take toChars.length).map some ++
    List.replicate (toChars.length - fromChars.length) none

/-- Session construction from the captured texts and start time. -/
def mkSession (fromText toText : List Char) (start : ℚ) : Session :=
  { fromPadded := mkFromPadded fromText toText, toChars := toText, start := start }

/-- Line 730: `Math.min((now - start) / I18N_TEXT_SWAP_MS, 1)`. -/
def progressAt (s : Session) (now : ℚ) : ℚ :=
  min ((now - s.start) / I18N_TEXT_SWAP_MS) 1

/-- Line 732: `Math.floor(progress * targetLen)`. -/
def revealCountAt (s : Session) (now : ℚ) : ℤ :=
  ⌊progressAt s now * (s.toChars.length : ℚ)⌋

/-- Line 733: `revealCount < targetLen ? revealCount : -1`. -/
def highlightIndexAt (s : Session) (now : ℚ) : ℤ :=
  if revealCountAt s now < (s.toChars.length : ℤ) then revealCountAt s now else -1

/-- The markup string built by one call of `step` at time `now`, before
the trailing-placeholder strip: `out.join("")`. -/
def tickMarkupRaw (s : Session) (now : ℚ) : List Char :=
  outCells (s.toChars.zip s.fromPadded) 0 (revealCountAt s now) (highlightIndexAt s now)

/-- The string assigned to `innerHTML` on line 757:
`out.join("").replace(...)` with the trailing non-breaking spaces
stripped. -/
def tickMarkup (s : Session) (now : ℚ) : List Char :=
  stripNbsp (tickMarkupRaw s now)

/-- State of one target element: its text content, its
`childElementCount`, and the session whose animation-frame callback is
currently scheduled for it (the element's `textAnimationRafs` entry),
if any. -/
structure ElState where
  text : List Char
  childCount : ℕ
  pending : Option Session
deriving DecidableEq, Repr

/-- `animateTextScramble(el, nextText)` (lines 705-768) up to and
including scheduling the first animation frame.  `el = none` is a
missing element.  The pending callback of a previous session is
cancelled first; identical text is a no-op; an element with child
elements gets a direct `textContent` assignment; otherwise a session is
created and its first frame scheduled.  `start` is the value
`performance.now()` returns during the call. -/
def animateTextScramble (el : Option ElState) (nextText : List Char) (start : ℚ) :
    Option ElState :=
  match el with
  | none => none
  | some st =>
    if st.text = nextText then some { st with pending := none }
    else if 0 < st.childCount then
      some { st with text := nextText, childCount := 0, pending := none }
    else
      some { st with pending := some (mkSession st.text nextText start) }

/-- The body of `step` (lines 729-764) for session `s`, run at frame
timestamp `now`: on completion commit the plain target text and drop the
`textAnimationRafs` entry; otherwise assign the built markup to
`innerHTML` and re-arm the callback. -/
def stepBody (s : Session) (st : ElState) (now : ℚ) : ElState :=
  if 1 ≤ progressAt s now then
    { st with text := s.toChars, childCount := 0, pending := none }
  else
    { st with
        text := textContentOf (tickMarkup s now),
        childCount :=
          outChildCount (s.toChars.zip s.fromPadded) 0 (revealCountAt s now)
            (highlightIndexAt s now),
        pending := some s }

/-- An animation frame firing for the element: if a callback is pending
its session's `step` runs, otherwise nothing happens. -/
def fireTick (st : ElState) (now : ℚ) : ElState :=
  match st.pending with
  | none => st
  | some s => stepBody s st now

/-- The per-element branch of `applyTranslationsToDom` (lines 180-188):
`animateTextScramble` when text animation was requested, otherwise a
direct synchronous `textContent` assignment (which replaces all
children). -/
def applyTextToEl (el : Option ElState) (animateText : Bool) (value : List Char)
    (now : ℚ) : Option ElState :=
  if animateText then animateTextScramble el value now
  else el.map (fun st => { st with text := value, childCount := 0 })

/-- Line 75 of the source:
`options.animate && !prefersReducedMotion`. -/
def shouldAnimate (animateOpt prefersReducedMotion : Bool) : Bool :=
  animateOpt && !prefersReducedMotion

theorem replaceAllChar_append (t : Char) (r a b : List Char) :
    replaceAllChar t r (a ++ b) = replaceAllChar t r a ++ replaceAllChar t r b := by
  induction a with
  | nil => rfl
  | cons c a ih => simp [replaceAllChar, ih]

theorem escapeHtml_cons (c : Char) (s : List Char) :
    escapeHtml (c :: s) = escapeChar c ++ escapeHtml s := by
  show escapeHtml ([c] ++ s) = escapeChar c ++ escapeHtml s
  simp only [escapeHtml, replaceAllChar_append]
  congr 1
  by_cases h1 : c = '&'
  · subst h1; decide
  by_cases h2 : c = '<'
  · subst h2; decide
  by_cases h3 : c = '>'
  · subst h3; decide
  by_cases h4 : c = '"'
  · subst h4; decide
  by_cases h5 : c = '\''
  · subst h5; decide
  simp [replaceAllChar, escapeChar, h1, h2, h3, h4, h5]

theorem escapeHtml_eq_escapeList (s : List Char) : escapeHtml s = escapeList s := by
  induction s with
  | nil => rfl
  | cons c s ih => rw [escapeHtml_cons, ih]; rfl

set_option maxHeartbeats 2000000 in
theorem unescapeHtml_cons_ne (c : Char) (h : c ≠ '&') (l : List Char) :
    unescapeHtml (c :: l) = c :: unescapeHtml l := by
  rw [unescapeHtml.eq_def]
  split
  any_goals simp_all

theorem unescapeHtml_escapeList_append (s r : List Char) :
    unescapeHtml (escapeList s ++ r) = s ++ unescapeHtml r := by
  induction s with
  | nil => simp [escapeList]
  | cons c s ih =>
    have hcons : escapeList (c :: s) = escapeChar c ++ escapeList s := by
      simp [escapeList]
    rw [hcons, List.append_assoc]
    by_cases h1 : c = '&'
    · subst h1
      have he : escapeChar '&' = '&' :: 'a' :: 'm' :: 'p' :: ';' :: [] := by decide
      have hu : ∀ X, unescapeHtml ('&' :: 'a' :: 'm' :: 'p' :: ';' :: X) =
          '&' :: unescapeHtml X := fun X => rfl
      rw [he]
      simp only [List.cons_append, List.nil_append, hu, ih]
    by_cases h2 : c = '<'
    · subst h2
      have he : escapeChar '<' = '&' :: 'l' :: 't' :: ';' :: [] := by decide
      have hu : ∀ X, unescapeHtml ('&' :: 'l' :: 't' :: ';' :: X) =
          '<' :: unescapeHtml X := fun X => rfl
      rw [he]
      simp only [List.cons_append, List.nil_append, hu, ih]
    by_cases h3 : c = '>'
    · subst h3
      have he : escapeChar '>' = '&' :: 'g' :: 't' :: ';' :: [] := by decide
      have hu : ∀ X, unescapeHtml ('&' :: 'g' :: 't' :: ';' :: X) =
          '>' :: unescapeHtml X := fun X => rfl
      rw [he]
      simp only [List.cons_append, List.nil_append, hu, ih]
    by_cases h4 : c = '"'
    · subst h4
      have he : escapeChar '"' = '&' :: 'q' :: 'u' :: 'o' :: 't' :: ';' :: [] := by decide
      have hu : ∀ X, unescapeHtml ('&' :: 'q' :: 'u' :: 'o' :: 't' :: ';' :: X) =
          '"' :: unescapeHtml X := fun X => rfl
      rw [he]
      simp only [List.cons_append, List.nil_append, hu, ih]
    by_cases h5 : c = '\''
    · subst h5
      have he : escapeChar '\'' = '&' :: '#' :: '0' :: '3' :: '9' :: ';' :: [] := by decide
      have hu : ∀ X, unescapeHtml ('&' :: '#' :: '0' :: '3' :: '9' :: ';' :: X) =
          '\'' :: unescapeHtml X := fun X => rfl
      rw [he]
      simp only [List.cons_append, List.nil_append, hu, ih]
    have he : escapeChar c = [c] := by
      simp [escapeChar, h1, h2, h3, h4, h5]
    rw [he]
    simp only [List.cons_append, List.nil_append, unescapeHtml_cons_ne c h1, ih]

theorem stripTagsGo_spanOpen (r : List Char) :
    stripTagsGo false (spanOpen ++ r) = stripTagsGo false r := by
  simp [spanOpen, stripTagsGo]

theorem stripTagsGo_spanClose (r : List Char) :
    stripTagsGo false (spanClose ++ r) = stripTagsGo false r := by
  simp [spanClose, stripTagsGo]

theorem stripTagsGo_clean_append (x r : List Char) (h : ∀ c ∈ x, c ≠ '<') :
    stripTagsGo false (x ++ r) = x ++ stripTagsGo false r := by
  induction x with
  | nil => rfl
  | cons c x ih =>
    have hc : c ≠ '<' := h c (by simp)
    simp only [List.cons_append, stripTagsGo, if_neg hc]
    rw [show x.append r = x ++ r from rfl, ih (fun d hd => h d (by simp [hd]))]

theorem escapeChar_no_lt (c : Char) : ∀ d ∈ escapeChar c, d ≠ '<' := by
  by_cases h1 : c = '&'
  · subst h1; decide
  by_cases h2 : c = '<'
  · subst h2; decide
  by_cases h3 : c = '>'
  · subst h3; decide
  by_cases h4 : c = '"'
  · subst h4; decide
  by_cases h5 : c = '\''
  · subst h5; decide
  intro d hd
  simp only [escapeChar, if_neg h1, if_neg h2, if_neg h3, if_neg h4, if_neg h5,
    List.mem_singleton] at hd
  subst hd; exact h2

theorem escapeList_no_lt (s : List Char) : ∀ d ∈ escapeList s, d ≠ '<' := by
  intro d hd
  simp only [escapeList, List.mem_flatMap] at hd
  obtain ⟨c, _, hdc⟩ := hd
  exact escapeChar_no_lt c d hdc

theorem stripTagsGo_escapeList_append (x r : List Char) :
    stripTagsGo false (escapeList x ++ r) = escapeList x ++ stripTagsGo false r :=
  stripTagsGo_clean_append _ _ (escapeList_no_lt x)

theorem cellMarkup_shape (tc : Char) (fc : Option Char) (i r hi : ℤ) :
    cellMarkup tc fc i r hi = escapeList (cellPlain tc fc i r) ∨
    cellMarkup tc fc i r hi =
      spanOpen ++ escapeList (cellPlain tc fc i r) ++ spanClose := by
  unfold cellMarkup cellPlain
  by_cases hlt : i < r
  · left; simp [if_pos hlt, escapeHtml_eq_escapeList]
  · by_cases hsp : i = hi ∧ sourceTrimNonempty fc
    · right; simp [if_neg hlt, if_pos hsp, escapeHtml_eq_escapeList]
    · left; simp [if_neg hlt, if_neg hsp, escapeHtml_eq_escapeList]

theorem textContent_outCells (ps : List (Char × Option Char)) (i r hi : ℤ) :
    textContentOf (outCells ps i r hi) = outPlain ps i r := by
  induction ps generalizing i with
  | nil => rfl
  | cons p ps ih =>
    obtain ⟨tc, fc⟩ := p
    rw [outCells, outPlain, textContentOf, stripTags]
    rcases cellMarkup_shape tc fc i r hi with hshape | hshape
    · rw [hshape, stripTagsGo_escapeList_append, unescapeHtml_escapeList_append,
        ← stripTags, ← textContentOf, ih]
    · rw [hshape, List.append_assoc, List.append_assoc, stripTagsGo_spanOpen,
        stripTagsGo_escapeList_append, unescapeHtml_escapeList_append,
        stripTagsGo_spanClose, ← stripTags, ← textContentOf, ih]

theorem stripNbsp_append_nbsp (m : List Char) :
    stripNbsp (m ++ [nbspChar]) = stripNbsp m := by
  simp [stripNbsp, List.dropWhile]

theorem stripNbsp_append_end_ne (m : List Char) (d : Char) (hd : d ≠ nbspChar) :
    stripNbsp (m ++ [d]) = m ++ [d] := by
  simp [stripNbsp, List.dropWhile, hd]

theorem outCells_concat (ps : List (Char × Option Char)) (tc : Char)
    (fc : Option Char) (i r hi : ℤ) :
    outCells (ps ++ [(tc, fc)]) i r hi =
      outCells ps i r hi ++ cellMarkup tc fc (i + ps.length) r hi := by
  induction ps generalizing i with
  | nil => simp [outCells]
  | cons q ps ih =>
    obtain ⟨a, b⟩ := q
    show cellMarkup a b i r hi ++ outCells (ps ++ [(tc, fc)]) (i + 1) r hi = _
    rw [ih]
    have harith : i + 1 + (ps.length : ℤ) = i + (((ps.length + 1 : ℕ) : ℤ)) := by
      push_cast; ring
    rw [harith]
    simp [outCells, List.append_assoc]

theorem outPlain_concat (ps : List (Char × Option Char)) (tc : Char)
    (fc : Option Char) (i r : ℤ) :
    outPlain (ps ++ [(tc, fc)]) i r =
      outPlain ps i r ++ cellPlain tc fc (i + ps.length) r := by
  induction ps generalizing i with
  | nil => simp [outPlain]
  | cons q ps ih =>
    obtain ⟨a, b⟩ := q
    show cellPlain a b i r ++ outPlain (ps ++ [(tc, fc)]) (i + 1) r = _
    rw [ih]
    have harith : i + 1 + (ps.length : ℤ) = i + (((ps.length + 1 : ℕ) : ℤ)) := by
      push_cast; ring
    rw [harith]
    simp [outPlain, List.append_assoc]

theorem escapeChar_shape (c : Char) :
    (c = nbspChar ∧ escapeChar c = [nbspChar]) ∨
    (c ≠ nbspChar ∧ ∃ y d, escapeChar c = y ++ [d] ∧ d ≠ nbspChar) := by
  by_cases h1 : c = '&'
  · subst h1; right; exact ⟨by decide, "&amp".data, ';', by decide, by decide⟩
  by_cases h2 : c = '<'
  · subst h2; right; exact ⟨by decide, "&lt".data, ';', by decide, by decide⟩
  by_cases h3 : c = '>'
  · subst h3; right; exact ⟨by decide, "&gt".data, ';', by decide, by decide⟩
  by_cases h4 : c = '"'
  · subst h4; right; exact ⟨by decide, "&quot".data, ';', by decide, by decide⟩
  by_cases h5 : c = '\''
  · subst h5; right; exact ⟨by decide, "&#039".data, ';', by decide, by decide⟩
  have he : escapeChar c = [c] := by simp [escapeChar, h1, h2, h3, h4, h5]
  by_cases hn : c = nbspChar
  · subst hn; left; exact ⟨rfl, he⟩
  · right; exact ⟨hn, [], c, by simp [he], hn⟩

theorem sourceTrimNonempty_some (fc : Option Char) (h : sourceTrimNonempty fc = true) :
    ∃ c, fc = some c ∧ isJsWhitespace c = false := by
  cases fc with
  | none => simp [sourceTrimNonempty] at h
  | some c =>
    refine ⟨c, rfl, ?_⟩
    simpa [sourceTrimNonempty] using h

theorem cell_shape (tc : Char) (fc : Option Char) (i r hi : ℤ) :
    (cellMarkup tc fc i r hi = [] ∧ cellPlain tc fc i r = []) ∨
    (cellMarkup tc fc i r hi = [nbspChar] ∧ cellPlain tc fc i r = [nbspChar]) ∨
    ((∃ y d, cellMarkup tc fc i r hi = y ++ [d] ∧ d ≠ nbspChar) ∧
      (∃ z e, cellPlain tc fc i r = z ++ [e] ∧ e ≠ nbspChar)) := by
  by_cases hlt : i < r
  · have hm : cellMarkup tc fc i r hi = escapeChar tc := by
      simp [cellMarkup, if_pos hlt, escapeHtml_eq_escapeList, escapeList]
    have hp : cellPlain tc fc i r = [tc] := by simp [cellPlain, if_pos hlt]
    rcases escapeChar_shape tc with ⟨hn, he⟩ | ⟨hn, y, d, he, hd⟩
    · right; left; rw [hm, hp, he, hn]; exact ⟨rfl, rfl⟩
    · right; right
      exact ⟨⟨y, d, by rw [hm, he], hd⟩, ⟨[], tc, by rw [hp]; rfl, hn⟩⟩
  · by_cases hsp : i = hi ∧ sourceTrimNonempty fc
    · obtain ⟨c, hfc, hws⟩ := sourceTrimNonempty_some fc hsp.2
      have hcs : c ≠ ' ' := by
        intro hc; subst hc; simp [isJsWhitespace] at hws
      have hcn : c ≠ nbspChar := by
        intro hc; subst hc; simp [isJsWhitespace, nbspChar] at hws
      have hshow : charToShow fc = some c := by
        simp [charToShow, hfc, hcs]
      have hm : cellMarkup tc fc i r hi =
          spanOpen ++ escapeHtml (optStr (charToShow fc)) ++ spanClose := by
        simp [cellMarkup, if_neg hlt, if_pos hsp]
      right; right
      constructor
      · refine ⟨spanOpen ++ escapeHtml (optStr (charToShow fc)) ++ "</span".data, '>',
          ?_, by decide⟩
        have hsc : spanClose = "</span".data ++ ['>'] := by decide
        rw [hm, hsc]
        simp [List.append_assoc]
      · exact ⟨[], c, by simp [cellPlain, if_neg hlt, hshow, optStr], hcn⟩
    · have hm : cellMarkup tc fc i r hi = escapeList (optStr (charToShow fc)) := by
        simp only [cellMarkup, if_neg hlt, if_neg hsp, escapeHtml_eq_escapeList]
      have hp : cellPlain tc fc i r = optStr (charToShow fc) := by
        simp [cellPlain, if_neg hlt]
      rw [hm, hp]
      cases fc with
      | none =>
        left
        exact ⟨rfl, rfl⟩
      | some c =>
        by_cases hcs : c = ' '
        · subst hcs
          have hshow : charToShow (some ' ') = some nbspChar := by simp [charToShow]
          right; left
          rw [hshow]
          constructor
          · simp [optStr, escapeList]
            decide
          · rfl
        · have hshow : charToShow (some c) = some c := by simp [charToShow, hcs]
          rcases escapeChar_shape c with ⟨hn, he⟩ | ⟨hn, y, d, he, hd⟩
          · right; left
            rw [hshow, hn]
            constructor
            · simp [optStr, escapeList]
              rw [← hn, he, hn]
            · rfl
          · right; right
            constructor
            · refine ⟨y, d, ?_, hd⟩
              rw [hshow]
              simp [optStr, escapeList]
              exact he
            · exact ⟨[], c, by rw [hshow]; rfl, hn⟩

theorem textContent_stripNbsp_outCells (ps : List (Char × Option Char)) (i r hi : ℤ) :
    textContentOf (stripNbsp (outCells ps i r hi)) = stripNbsp (outPlain ps i r) := by
  induction ps using List.reverseRecOn generalizing i with
  | nil => rfl
  | append_singleton ps p ih =>
    obtain ⟨tc, fc⟩ := p
    rw [outCells_concat, outPlain_concat]
    rcases cell_shape tc fc (i + ps.length) r hi with ⟨hm, hp⟩ | ⟨hm, hp⟩ |
        ⟨⟨y, d, hm, hd⟩, ⟨z, e, hp, he⟩⟩
    · rw [hm, hp, List.append_nil, List.append_nil]
      exact ih i
    · rw [hm, hp, stripNbsp_append_nbsp, stripNbsp_append_nbsp]
      exact ih i
    · rw [hm, hp, ← List.append_assoc, ← List.append_assoc,
        stripNbsp_append_end_ne _ d hd, stripNbsp_append_end_ne _ e he,
        List.append_assoc, ← hm, ← outCells_concat, textContent_outCells,
        outPlain_concat, hp, List.append_assoc]

theorem outPlain_take_drop (ps : List (Char × Option Char)) (i r : ℤ) :
    outPlain ps i r =
      (ps.map Prod.fst).take (r - i).toNat ++
        ((ps.map Prod.snd).drop ((r - i).toNat)).flatMap
          (fun fc => optStr (charToShow fc)) := by
  induction ps generalizing i with
  | nil => simp [outPlain]
  | cons p ps ih =>
    obtain ⟨tc, fc⟩ := p
    by_cases hlt : i < r
    · have h1 : (r - i).toNat = (r - (i + 1)).toNat + 1 := by omega
      rw [outPlain,
        show cellPlain tc fc i r = [tc] from by simp [cellPlain, if_pos hlt]]
      simp only [List.map_cons, h1, List.take_succ_cons, List.drop_succ_cons]
      rw [ih]
      simp
    · have h0 : (r - i).toNat = 0 := by omega
      have h0' : (r - (i + 1)).toNat = 0 := by omega
      rw [outPlain,
        show cellPlain tc fc i r = optStr (charToShow fc) from by
          simp [cellPlain, if_neg hlt]]
      simp only [List.map_cons, h0, List.take_zero, List.drop_zero,
        List.nil_append]
      rw [ih, h0']
      simp

theorem mkFromPadded_length (a b : List Char) :
    (mkFromPadded a b).length = b.length := by
  simp [mkFromPadded]
  omega

theorem tickMarkup_textContent (fromText toText : List Char) (start now : ℚ) :
    textContentOf (tickMarkup (mkSession fromText toText start) now) =
      stripNbsp
        (toText.take (revealCountAt (mkSession fromText toText start) now).toNat ++
          ((mkFromPadded fromText toText).drop
              (revealCountAt (mkSession fromText toText start) now).toNat).flatMap
            (fun fc => optStr (charToShow fc))) := by
  have hlen : toText.length = (mkFromPadded fromText toText).length :=
    (mkFromPadded_length fromText toText).symm
  rw [tickMarkup, tickMarkupRaw, textContent_stripNbsp_outCells,
    outPlain_take_drop]
  have hfst : ((mkSession fromText toText start).toChars.zip
      (mkSession fromText toText start).fromPadded).map Prod.fst = toText :=
    List.map_fst_zip _ _ (le_of_eq hlen)
  have hsnd : ((mkSession fromText toText start).toChars.zip
      (mkSession fromText toText start).fromPadded).map Prod.snd =
        mkFromPadded fromText toText :=
    List.map_snd_zip _ _ (le_of_eq hlen.symm)
  rw [hfst, hsnd, sub_zero]

/-- C10: `escapeHtml` is injective and lossless — decoding the five
entities it produces recovers the original string exactly; because the
ampersand is replaced before the other four characters, each input
character is escaped exactly once (`escapeHtml` acts character by
character) and no entity text is re-escaped or made ambiguous. -/
theorem c10_escapeHtml_lossless_injective :
    (∀ s : List Char, unescapeHtml (escapeHtml s) = s) ∧
    Function.Injective escapeHtml := by
  have hdec : ∀ s : List Char, unescapeHtml (escapeHtml s) = s := by
    intro s
    rw [escapeHtml_eq_escapeList]
    have h0 : unescapeHtml ([] : List Char) = [] := rfl
    simpa [h0] using unescapeHtml_escapeList_append s []
  refine ⟨hdec, ?_⟩
  intro a b hab
  have h := congrArg unescapeHtml hab
  rwa [hdec, hdec] at h

/-- C9: within a single session, if the animation-frame timestamps are
non-decreasing then the reveal count computed at each tick is
non-decreasing. -/
theorem c9_revealCount_monotone (s : Session) (now₁ now₂ : ℚ)
    (h : now₁ ≤ now₂) : revealCountAt s now₁ ≤ revealCountAt s now₂ := by
  apply Int.floor_le_floor
  apply mul_le_mul_of_nonneg_right _ (by positivity)
  apply min_le_min _ le_rfl
  have hpos : (0 : ℚ) < I18N_TEXT_SWAP_MS := by norm_num [I18N_TEXT_SWAP_MS]
  exact (div_le_div_iff_of_pos_right hpos).mpr (sub_le_sub_right h _)

/-- Witness for C9 at a concrete session and pair of timestamps. -/
theorem c9_witness :
    (0 : ℚ) ≤ 500 ∧
      revealCountAt (mkSession "ab".data "xyz".data 0) 0 ≤
        revealCountAt (mkSession "ab".data "xyz".data 0) 500 :=
  ⟨by norm_num,
    c9_revealCount_monotone (mkSession "ab".data "xyz".data 0) 0 500 (by norm_num)⟩

/-- C7: every character placed into the markup during a tick is
HTML-escaped first — `escapeHtml` acts character by character with the
ampersand replaced before the other four — so for every pair of input
strings the text content a browser derives from the built markup (raw
and as assigned to `innerHTML`) is exactly the intended plain character
sequence: no input character is ever interpreted as markup. -/
theorem c7_markup_safe :
    (∀ s : List Char, escapeHtml s = escapeList s) ∧
    (∀ (fromText toText : List Char) (start now : ℚ),
      textContentOf (tickMarkupRaw (mkSession fromText toText start) now) =
        outPlain ((mkSession fromText toText start).toChars.zip
            (mkSession fromText toText start).fromPadded) 0
          (revealCountAt (mkSession fromText toText start) now)) ∧
    (∀ (fromText toText : List Char) (start now : ℚ),
      textContentOf (tickMarkup (mkSession fromText toText start) now) =
        stripNbsp (outPlain ((mkSession fromText toText start).toChars.zip
            (mkSession fromText toText start).fromPadded) 0
          (revealCountAt (mkSession fromText toText start) now))) := by
  refine ⟨escapeHtml_eq_escapeList, ?_, ?_⟩
  · intro fromText toText start now
    rw [tickMarkupRaw, textContent_outCells]
  · intro fromText toText start now
    rw [tickMarkup, tickMarkupRaw, textContent_stripNbsp_outCells]

/-- C8: a missing element is a no-op, and calling the transition with the
text the element already shows, while no callback is pending, leaves the
state exactly unchanged and creates no session. -/
theorem c8_noop (st : ElState) (v : List Char) (now : ℚ)
    (hpending : st.pending = none) (htext : st.text = v) :
    animateTextScramble none v now = none ∧
    animateTextScramble (some st) v now = some st := by
  refine ⟨rfl, ?_⟩
  rw [animateTextScramble]
  simp only [htext, if_pos rfl]
  cases st
  simp_all

/-- Witness for C8 at a concrete element state. -/
theorem c8_witness :
    animateTextScramble none ("b".data) 0 = none ∧
    animateTextScramble (some ⟨"b".data, 0, none⟩) ("b".data) 0 =
      some ⟨"b".data, 0, none⟩ :=
  c8_noop ⟨"b".data, 0, none⟩ ("b".data) 0 rfl rfl

/-- C4: if animation is disabled the transition replaces the element's
content immediately and synchronously and schedules nothing: with the
reduced-motion preference set the call site resolves to a direct
`textContent` assignment (no session is created), and an element with
child markup gets a direct assignment inside `animateTextScramble`
(afterwards its text is the new string and no callback is pending). -/
theorem c4_animation_disabled (st : ElState) (animateOpt : Bool)
    (v : List Char) (now : ℚ) (hchild : 0 < st.childCount) :
    applyTextToEl (some st) (shouldAnimate animateOpt true) v now =
      some { st with text := v, childCount := 0 } ∧
    ∃ st', animateTextScramble (some st) v now = some st' ∧
      st'.text = v ∧ st'.pending = none := by
  constructor
  · simp [shouldAnimate, applyTextToEl]
  · rw [animateTextScramble]
    by_cases h : st.text = v
    · exact ⟨{ st with pending := none }, by simp [h], h, rfl⟩
    · refine ⟨{ st with text := v, childCount := 0, pending := none }, ?_, rfl, rfl⟩
      simp [h, hchild]

/-- Witness for C4 at a concrete element with one child element. -/
theorem c4_witness :
    applyTextToEl (some ⟨"a".data, 1, none⟩) (shouldAnimate true true) ("b".data) 0 =
      some { (⟨"a".data, 1, none⟩ : ElState) with text := "b".data, childCount := 0 } ∧
    ∃ st', animateTextScramble (some (⟨"a".data, 1, none⟩ : ElState)) ("b".data) 0 =
      some st' ∧ st'.text = "b".data ∧ st'.pending = none :=
  c4_animation_disabled ⟨"a".data, 1, none⟩ true ("b".data) 0 (by decide)

/-- C1 (amended): on each tick the elapsed fraction is
`min(1, (now - start) / 1000)`, the reveal count is
`floor(fraction * length B)`, and the rendered text is the first
reveal-count characters of B followed by the remaining positions of the
padded A under the display rule of the source (space shown as a
non-breaking space via `charToShow`, empty padding cells contributing
nothing) with the trailing non-breaking-space run stripped.  The claim
as frozen omits the display rule; see the counterexample. -/
theorem c1_tick_rendering (fromText toText : List Char) (start now : ℚ) :
    progressAt (mkSession fromText toText start) now =
      min ((now - start) / 1000) 1 ∧
    revealCountAt (mkSession fromText toText start) now =
      ⌊progressAt (mkSession fromText toText start) now * (toText.length : ℚ)⌋ ∧
    textContentOf (tickMarkup (mkSession fromText toText start) now) =
      stripNbsp
        (toText.take (revealCountAt (mkSession fromText toText start) now).toNat ++
          ((mkFromPadded fromText toText).drop
              (revealCountAt (mkSession fromText toText start) now).toNat).flatMap
            (fun fc => optStr (charToShow fc))) :=
  ⟨rfl, rfl, tickMarkup_textContent fromText toText start now⟩

/-- C1 counterexample: transitioning from "a b" to "xyz", at a tick with
fraction 0 the reveal count is 0, so the claim as stated predicts the
rendered content "a b" (all remaining positions taken verbatim from the
padded A); the code instead renders the space as a non-breaking space,
giving a different character sequence. -/
theorem c1_counterexample :
    animateTextScramble (some ⟨"a b".data, 0, none⟩) ("xyz".data) 0 =
      some ⟨"a b".data, 0, some (mkSession "a b".data "xyz".data 0)⟩ ∧
    revealCountAt (mkSession "a b".data "xyz".data 0) 0 = 0 ∧
    (mkFromPadded "a b".data "xyz".data).flatMap optStr = "a b".data ∧
    (fireTick ⟨"a b".data, 0, some (mkSession "a b".data "xyz".data 0)⟩ 0).text =
      ['a', nbspChar, 'b'] ∧
    (['a', nbspChar, 'b'] : List Char) ≠ "a b".data := by
  have hp : progressAt (mkSession "a b".data "xyz".data 0) 0 = 0 := by
    norm_num [progressAt, mkSession, I18N_TEXT_SWAP_MS]
  have hr : revealCountAt (mkSession "a b".data "xyz".data 0) 0 = 0 := by
    rw [revealCountAt, hp]; norm_num
  refine ⟨by decide, hr, by decide, ?_, by decide⟩
  rw [fireTick]
  simp only [stepBody, hp, hr, tickMarkup, tickMarkupRaw, highlightIndexAt]
  norm_num [mkSession]
  decide

/-- C2 (amended): when the fraction reaches 1 the element's content is
set to the plain target string B exactly; at fraction 0 the rendered
text is the padded/truncated A under the display rule of the source
(spaces as non-breaking spaces, padding cells contributing nothing,
trailing non-breaking-space run stripped).  The claim as frozen asserts
the fraction-0 output equals A padded/truncated verbatim; see the
counterexample. -/
theorem c2_endpoint_outputs (fromText toText : List Char) (start now : ℚ)
    (st : ElState) :
    (1 ≤ progressAt (mkSession fromText toText start) now →
      (stepBody (mkSession fromText toText start) st now).text = toText) ∧
    (progressAt (mkSession fromText toText start) now = 0 →
      (stepBody (mkSession fromText toText start) st now).text =
        stripNbsp ((mkFromPadded fromText toText).flatMap
          (fun fc => optStr (charToShow fc)))) := by
  constructor
  · intro h
    rw [stepBody, if_pos h]
    rfl
  · intro h
    have h1 : ¬ (1 ≤ progressAt (mkSession fromText toText start) now) := by
      rw [h]; norm_num
    rw [stepBody, if_neg h1]
    simp only
    rw [tickMarkup_textContent]
    have hr : revealCountAt (mkSession fromText toText start) now = 0 := by
      rw [revealCountAt, h]; norm_num
    rw [hr]
    norm_num

/-- Witness for C2 at the session "ab" to "xyz", applying the theorem at
fraction 1 (timestamp 1000) and fraction 0 (timestamp 0). -/
theorem c2_witness :
    (stepBody (mkSession "ab".data "xyz".data 0) ⟨"ab".data, 0, none⟩ 1000).text =
      "xyz".data ∧
    (stepBody (mkSession "ab".data "xyz".data 0) ⟨"ab".data, 0, none⟩ 0).text =
      stripNbsp ((mkFromPadded "ab".data "xyz".data).flatMap
        (fun fc => optStr (charToShow fc))) :=
  ⟨(c2_endpoint_outputs "ab".data "xyz".data 0 1000 ⟨"ab".data, 0, none⟩).1
      (by norm_num [progressAt, mkSession, I18N_TEXT_SWAP_MS]),
    (c2_endpoint_outputs "ab".data "xyz".data 0 0 ⟨"ab".data, 0, none⟩).2
      (by norm_num [progressAt, mkSession, I18N_TEXT_SWAP_MS])⟩

/-- C2 counterexample: transitioning from "ab " to "wxyz", at fraction 0
the code renders "ab" — the trailing space becomes a non-breaking space
and is then stripped — which differs from A padded/truncated to B's
length ("ab " as a character sequence). -/
theorem c2_counterexample :
    progressAt (mkSession "ab ".data "wxyz".data 0) 0 = 0 ∧
    (fireTick ⟨"ab ".data, 0, some (mkSession "ab ".data "wxyz".data 0)⟩ 0).text =
      "ab".data ∧
    ("ab".data : List Char) ≠ "ab ".data := by
  have hp : progressAt (mkSession "ab ".data "wxyz".data 0) 0 = 0 := by
    norm_num [progressAt, mkSession, I18N_TEXT_SWAP_MS]
  have hr : revealCountAt (mkSession "ab ".data "wxyz".data 0) 0 = 0 := by
    rw [revealCountAt, hp]; norm_num
  refine ⟨hp, ?_, by decide⟩
  rw [fireTick]
  simp only [stepBody, hp, hr, tickMarkup, tickMarkupRaw, highlightIndexAt]
  norm_num [mkSession]
  decide

theorem mem_of_mem_dropWhile {p : Char → Bool} {c : Char} {l : List Char}
    (h : c ∈ List.dropWhile p l) : c ∈ l := by
  induction l with
  | nil => simp at h
  | cons a l ih =>
    rw [List.dropWhile_cons] at h
    by_cases hp : p a
    · simp only [hp, if_true] at h
      exact List.mem_cons_of_mem a (ih h)
    · simp only [hp, if_false] at h
      simpa using h

theorem mem_of_mem_stripNbsp {c : Char} {l : List Char}
    (h : c ∈ stripNbsp l) : c ∈ l := by
  rw [stripNbsp, List.mem_reverse] at h
  exact List.mem_reverse.mp (mem_of_mem_dropWhile h)

theorem mem_of_mem_mkFromPadded {d : Char} {a b : List Char}
    (h : some d ∈ mkFromPadded a b) : d ∈ a := by
  rw [mkFromPadded] at h
  rcases List.mem_append.mp h with h1 | h1
  · obtain ⟨e, he, heq⟩ := List.mem_map.mp h1
    obtain rfl : e = d := Option.some_injective _ heq
    exact List.mem_of_mem_take he
  · exact absurd (List.eq_of_mem_replicate h1) (by simp)

/-- C6 (amended): the "from" and "to" strings are handled as sequences
of Unicode code points (the behaviour of `Array.from`), so every
character in the rendered text is a whole code point taken from B, from
A, or the non-breaking-space placeholder — no code point (in particular
no surrogate-pair character) is ever fragmented.  Combining character
sequences, however, span several code points and can be split
mid-animation; see the counterexample. -/
theorem c6_rendered_chars (fromText toText : List Char) (start now : ℚ)
    (c : Char)
    (hc : c ∈ textContentOf (tickMarkup (mkSession fromText toText start) now)) :
    c ∈ toText ∨ c ∈ fromText ∨ c = nbspChar := by
  rw [tickMarkup_textContent] at hc
  have hc2 := mem_of_mem_stripNbsp hc
  rcases List.mem_append.mp hc2 with h1 | h1
  · exact Or.inl (List.mem_of_mem_take h1)
  · obtain ⟨fc, hfc, hcfc⟩ := List.mem_flatMap.mp h1
    have hfc2 : fc ∈ mkFromPadded fromText toText := List.mem_of_mem_drop hfc
    cases fc with
    | none =>
      rw [show charToShow none = none from by simp [charToShow]] at hcfc
      simp [optStr] at hcfc
    | some d =>
      by_cases hd : d = ' '
      · subst hd
        rw [show charToShow (some ' ') = some nbspChar from by simp [charToShow]]
          at hcfc
        simp only [optStr, List.mem_singleton] at hcfc
        exact Or.inr (Or.inr hcfc)
      · rw [show charToShow (some d) = some d from by simp [charToShow, hd]]
          at hcfc
        simp only [optStr, List.mem_singleton] at hcfc
        subst hcfc
        exact Or.inr (Or.inl (mem_of_mem_mkFromPadded hfc2))

/-- Witness for C6: the character at position 0 of the tick rendering of
"ab" to "xy" at fraction 0 is a whole code point of one of the inputs. -/
theorem c6_witness :
    'a' ∈ "xy".data ∨ 'a' ∈ "ab".data ∨ 'a' = nbspChar :=
  c6_rendered_chars "ab".data "xy".data 0 0 'a' (by
    have hp : progressAt (mkSession "ab".data "xy".data 0) 0 = 0 := by
      norm_num [progressAt, mkSession, I18N_TEXT_SWAP_MS]
    have hr : revealCountAt (mkSession "ab".data "xy".data 0) 0 = 0 := by
      rw [revealCountAt, hp]; norm_num
    simp only [tickMarkup, tickMarkupRaw, highlightIndexAt, hr]
    norm_num [mkSession]
    decide)

/-- C6 counterexample: the decomposed form of an accented "e" is the two
code points U+0065 and U+0301 (a combining acute accent).  Transitioning from "xy"
to that string, at fraction 1/2 the reveal count is 1 and the rendered
text is "ey": the base character is shown without its combining mark —
the combining character sequence is split mid-animation. -/
theorem c6_counterexample :
    "e\u0301".data = ['e', '\u0301'] ∧
    (0x300 ≤ '\u0301'.toNat ∧ '\u0301'.toNat ≤ 0x36F) ∧
    revealCountAt (mkSession "xy".data "e\u0301".data 0) 500 = 1 ∧
    textContentOf (tickMarkup (mkSession "xy".data "e\u0301".data 0) 500) =
      ['e', 'y'] := by
  have hp : progressAt (mkSession "xy".data "e\u0301".data 0) 500 = 1 / 2 := by
    norm_num [progressAt, mkSession, I18N_TEXT_SWAP_MS]
  have hr : revealCountAt (mkSession "xy".data "e\u0301".data 0) 500 = 1 := by
    rw [revealCountAt, hp]
    norm_num [mkSession]
  refine ⟨by decide, by decide, hr, ?_⟩
  simp only [tickMarkup, tickMarkupRaw, highlightIndexAt, hr]
  norm_num [mkSession]
  decide

/-- C5 (amended): during an animated transition an unrevealed position
whose padded source cell is a space is rendered as a non-breaking space,
while a padding placeholder (an empty cell) renders nothing at all.  In
the scenario "Home" to "Про нас" at fraction 0.5 the reveal count is 3,
the first three rendered characters come from "Про нас", position 3 is
the character "e" from "Home", and the padding positions 4-6 contribute
no characters (the rendered text has length 4). -/
theorem c5_blank_rendering :
    revealCountAt (mkSession "Home".data "Про нас".data 0) 500 = 3 ∧
    mkFromPadded "Home".data "Про нас".data =
      [some 'H', some 'o', some 'm', some 'e', none, none, none] ∧
    textContentOf (tickMarkup (mkSession "Home".data "Про нас".data 0) 500) =
      "Про".data ++ ['e'] ∧
    textContentOf (tickMarkup (mkSession "a b".data "xyzvw".data 0) 0) =
      ['a', nbspChar, 'b'] := by
  have hp : progressAt (mkSession "Home".data "Про нас".data 0) 500 = 1 / 2 := by
    norm_num [progressAt, mkSession, I18N_TEXT_SWAP_MS]
  have hr : revealCountAt (mkSession "Home".data "Про нас".data 0) 500 = 3 := by
    rw [revealCountAt, hp]
    norm_num [mkSession]
  have hp2 : progressAt (mkSession "a b".data "xyzvw".data 0) 0 = 0 := by
    norm_num [progressAt, mkSession, I18N_TEXT_SWAP_MS]
  have hr2 : revealCountAt (mkSession "a b".data "xyzvw".data 0) 0 = 0 := by
    rw [revealCountAt, hp2]; norm_num
  refine ⟨hr, by decide, ?_, ?_⟩
  · simp only [tickMarkup, tickMarkupRaw, highlightIndexAt, hr]
    norm_num [mkSession]
    decide
  · simp only [tickMarkup, tickMarkupRaw, highlightIndexAt, hr2]
    norm_num [mkSession]
    decide

/-- C5 counterexample: in the scenario "Home" to "Про нас" at fraction
0.5 the code renders only four characters — the padding positions 4-6
produce nothing, and no non-breaking space occurs anywhere in the
rendering — contradicting the claim that every padding placeholder is
rendered as a non-breaking space. -/
theorem c5_counterexample :
    revealCountAt (mkSession "Home".data "Про нас".data 0) 500 = 3 ∧
    (textContentOf (tickMarkup (mkSession "Home".data "Про нас".data 0) 500)).length
      = 4 ∧
    nbspChar ∉
      textContentOf (tickMarkup (mkSession "Home".data "Про нас".data 0) 500) := by
  have hp : progressAt (mkSession "Home".data "Про нас".data 0) 500 = 1 / 2 := by
    norm_num [progressAt, mkSession, I18N_TEXT_SWAP_MS]
  have hr : revealCountAt (mkSession "Home".data "Про нас".data 0) 500 = 3 := by
    rw [revealCountAt, hp]
    norm_num [mkSession]
  have hout : textContentOf (tickMarkup (mkSession "Home".data "Про нас".data 0) 500)
      = "Про".data ++ ['e'] := by
    simp only [tickMarkup, tickMarkupRaw, highlightIndexAt, hr]
    norm_num [mkSession]
    decide
  rw [hout]
  exact ⟨hr, by decide, by decide⟩

/-- C3 (amended): starting a session A to B on an idle element showing A
and then, before any frame fires, starting A to C, leaves exactly one
pending session: it targets C, its "from" cells are captured from the
still-displayed text A (not from B — the first session never ran), the
first session's callback is cancelled, and the element's content is
still A.  The frozen claim's labelling of the second session as "B to C"
and its assertion that no character of A is ever rendered afterwards do
not hold; see the counterexample. -/
theorem c3_cancel_supersede (A B C : List Char) (t1 t2 : ℚ)
    (hAB : A ≠ B) (hAC : A ≠ C) :
    animateTextScramble (animateTextScramble (some ⟨A, 0, none⟩) B t1) C t2 =
      some ⟨A, 0, some (mkSession A C t2)⟩ := by
  simp [animateTextScramble, hAB, hAC]

/-- Witness for C3 at concrete texts "ab", "cd", "xy". -/
theorem c3_witness :
    animateTextScramble
        (animateTextScramble (some ⟨"ab".data, 0, none⟩) ("cd".data) 0)
        ("xy".data) 0 =
      some ⟨"ab".data, 0, some (mkSession "ab".data "xy".data 0)⟩ :=
  c3_cancel_supersede ("ab".data) ("cd".data) ("xy".data) 0 0 (by decide) (by decide)

/-- C3 counterexample: after starting "ab" to "cd" and immediately
"ab" to "xy" (before any tick), the single remaining session was built
from the still-displayed "ab", and its first tick at fraction 0 renders
"ab" — characters of A are rendered after the supersession, contradicting
"no residual characters from A ever rendered", and the second session is
A to C rather than B to C. -/
theorem c3_counterexample :
    animateTextScramble
        (animateTextScramble (some ⟨"ab".data, 0, none⟩) ("cd".data) 0)
        ("xy".data) 0 =
      some ⟨"ab".data, 0, some (mkSession "ab".data "xy".data 0)⟩ ∧
    (mkSession "ab".data "xy".data 0).fromPadded = [some 'a', some 'b'] ∧
    (fireTick ⟨"ab".data, 0, some (mkSession "ab".data "xy".data 0)⟩ 0).text =
      "ab".data ∧
    'a' ∈ ("ab".data : List Char) ∧ 'a' ∉ ("xy".data : List Char) := by
  have hp : progressAt (mkSession "ab".data "xy".data 0) 0 = 0 := by
    norm_num [progressAt, mkSession, I18N_TEXT_SWAP_MS]
  have hr : revealCountAt (mkSession "ab".data "xy".data 0) 0 = 0 := by
    rw [revealCountAt, hp]; norm_num
  refine ⟨by decide, by decide, ?_, by decide, by decide⟩
  rw [fireTick]
  simp only [stepBody, hp, hr, tickMarkup, tickMarkupRaw, highlightIndexAt]
  norm_num [mkSession]
  decide
